import Mathlib

/-!
Verification of the Morton (Z-order) encode/decode library.

The source provides two implementations:
* `portable`: `part1by1` spreads a 32-bit value onto the even bit positions of
  a 64-bit word via five xor-shift-mask rounds; `compact1by1` is its inverse;
  `morton_encode`/`morton_decode` interleave and de-interleave two coordinates.
* `bmi`: the same contract through the BMI2 `pdep`/`pext` instructions with the
  alternating mask `0x5555555555555555`.

Machine integers are modelled as `Nat` with explicit truncation: `u64`
left-shifts truncate with `% 2^64`, the `as u32` cast is `% 2^32`, and the
`u32 -> u64` zero-extending cast is value-preserving.
-/

namespace Morton

namespace portable

/-- Spread the 32 low bits of `x` onto the even bit positions of a 64-bit word
(`fn part1by1` in the source; the first line models `x as u64` followed by
`x &= 0x00000000ffffffff`, and each `<<` on `u64` truncates modulo `2^64`). -/
def part1by1 (x : Nat) : Nat :=
  let x := x &&& 0x00000000ffffffff
  let x := (x ^^^ ((x <<< 16) % 2 ^ 64)) &&& 0x0000ffff0000ffff
  let x := (x ^^^ ((x <<< 8) % 2 ^ 64)) &&& 0x00ff00ff00ff00ff
  let x := (x ^^^ ((x <<< 4) % 2 ^ 64)) &&& 0x0f0f0f0f0f0f0f0f
  let x := (x ^^^ ((x <<< 2) % 2 ^ 64)) &&& 0x3333333333333333
  let x := (x ^^^ ((x <<< 1) % 2 ^ 64)) &&& 0x5555555555555555
  x

/-- Portable Morton encoding (`fn morton_encode` in the source):
`(part1by1(y) << 1) + part1by1(x)` over `u64`. -/
def morton_encode (x y : Nat) : Nat :=
  (((part1by1 y <<< 1) % 2 ^ 64) + part1by1 x) % 2 ^ 64

/-- Gather the even bit positions of a 64-bit word into the 32 low bits
(`fn compact1by1` in the source; the trailing `% 2^32` models `x as u32`). -/
def compact1by1 (x : Nat) : Nat :=
  let x := x &&& 0x5555555555555555
  let x := (x ^^^ (x >>> 1)) &&& 0x3333333333333333
  let x := (x ^^^ (x >>> 2)) &&& 0x0f0f0f0f0f0f0f0f
  let x := (x ^^^ (x >>> 4)) &&& 0x00ff00ff00ff00ff
  let x := (x ^^^ (x >>> 8)) &&& 0x0000ffff0000ffff
  let x := (x ^^^ (x >>> 16)) &&& 0x00000000ffffffff
  x % 2 ^ 32

/-- Portable Morton decoding (`fn morton_decode` in the source):
`(compact1by1(x), compact1by1(x >> 1))`. -/
def morton_decode (x : Nat) : Nat × Nat :=
  (compact1by1 x, compact1by1 (x >>> 1))

end portable

namespace bmi

/-- Architectural semantics of the BMI2 parallel-bit-deposit instruction
(`pdep`), processing `fuel` mask bits from the least-significant end: where a
mask bit is set, the next unconsumed low bit of `s` is deposited there
(models the `llvm.x86.bmi.pdep.64` intrinsic used by the source). -/
def pdepAux (s m : Nat) : Nat → Nat
  | 0 => 0
  | fuel + 1 =>
    if m % 2 = 1 then 2 * pdepAux (s / 2) (m / 2) fuel + s % 2
    else 2 * pdepAux s (m / 2) fuel

/-- Architectural semantics of the BMI2 parallel-bit-extract instruction
(`pext`), processing `fuel` mask bits from the least-significant end: the bits
of `s` sitting where mask bits are set are gathered, in order, into the low
bits of the result (models the `llvm.x86.bmi.pext.64` intrinsic). -/
def pextAux (s m : Nat) : Nat → Nat
  | 0 => 0
  | fuel + 1 =>
    if m % 2 = 1 then 2 * pextAux (s / 2) (m / 2) fuel + s % 2
    else pextAux (s / 2) (m / 2) fuel

/-- The alternating deposit/extract mask (`const PATTERN` in the source). -/
def PATTERN : Nat := 0x5555555555555555

/-- BMI2 Morton encoding (`bmi::morton_encode` in the source):
`(pdep(y, PATTERN) << 1) | pdep(x, PATTERN)` over 64-bit registers; the
`% 2 ^ 32` models the zero-extending `u32 -> i64` cast of each coordinate and
the `% 2 ^ 64` the truncating `<< 1` on a 64-bit register. -/
def morton_encode (x y : Nat) : Nat :=
  ((pdepAux (y % 2 ^ 32) PATTERN 64 <<< 1) % 2 ^ 64) ||| pdepAux (x % 2 ^ 32) PATTERN 64

/-- Two's-complement arithmetic right shift by one of a 64-bit value
(`a as i64 >> 1` in the source, read back as an unsigned bit pattern): the
sign bit 63 is replicated into the vacated top position. -/
def sar64 (a : Nat) : Nat :=
  if (a % 2 ^ 64).testBit 63 then (a % 2 ^ 64) >>> 1 ||| 1 <<< 63
  else (a % 2 ^ 64) >>> 1

/-- BMI2 Morton decoding (`bmi::morton_decode` in the source):
`(pext(a, PATTERN) as u32, pext(a as i64 >> 1, PATTERN) as u32)`. -/
def morton_decode (a : Nat) : Nat × Nat :=
  (pextAux (a % 2 ^ 64) PATTERN 64 % 2 ^ 32, pextAux (sar64 a) PATTERN 64 % 2 ^ 32)

end bmi

/-- Alternating-bit mask of width `2n` with the even positions set, used to
reason about `pdep`/`pext` with `PATTERN` by induction. -/
def alt : Nat → Nat
  | 0 => 0
  | n + 1 => 4 * alt n + 1

/-- Bits of the low 32-bit mask. -/
theorem maskbit32 (i : Nat) :
    Nat.testBit 0x00000000ffffffff i = decide (i < 32) := by
  have h64 : ∀ j, j < 64 → Nat.testBit 0x00000000ffffffff j = decide (j < 32) := by
    decide
  by_cases hi : i < 64
  · exact h64 i hi
  · have hlt : (0x00000000ffffffff : Nat) < 2 ^ i :=
      lt_of_lt_of_le (by norm_num)
        (Nat.pow_le_pow_right (by norm_num) (Nat.le_of_not_lt hi))
    simp [Nat.testBit_lt_two_pow hlt]
    omega

/-- Bits of the mask `0x0000ffff0000ffff`. -/
theorem maskbit16 (i : Nat) :
    Nat.testBit 0x0000ffff0000ffff i = (decide (i < 64) && decide (i % 32 < 16)) := by
  have h64 : ∀ j, j < 64 →
      Nat.testBit 0x0000ffff0000ffff j = decide (j % 32 < 16) := by decide
  by_cases hi : i < 64
  · simp [h64 i hi, hi]
  · have hlt : (0x0000ffff0000ffff : Nat) < 2 ^ i :=
      lt_of_lt_of_le (by norm_num)
        (Nat.pow_le_pow_right (by norm_num) (Nat.le_of_not_lt hi))
    simp [Nat.testBit_lt_two_pow hlt, hi]

/-- Bits of the mask `0x00ff00ff00ff00ff`. -/
theorem maskbit8 (i : Nat) :
    Nat.testBit 0x00ff00ff00ff00ff i = (decide (i < 64) && decide (i % 16 < 8)) := by
  have h64 : ∀ j, j < 64 →
      Nat.testBit 0x00ff00ff00ff00ff j = decide (j % 16 < 8) := by decide
  by_cases hi : i < 64
  · simp [h64 i hi, hi]
  · have hlt : (0x00ff00ff00ff00ff : Nat) < 2 ^ i :=
      lt_of_lt_of_le (by norm_num)
        (Nat.pow_le_pow_right (by norm_num) (Nat.le_of_not_lt hi))
    simp [Nat.testBit_lt_two_pow hlt, hi]

/-- Bits of the mask `0x0f0f0f0f0f0f0f0f`. -/
theorem maskbit4 (i : Nat) :
    Nat.testBit 0x0f0f0f0f0f0f0f0f i = (decide (i < 64) && decide (i % 8 < 4)) := by
  have h64 : ∀ j, j < 64 →
      Nat.testBit 0x0f0f0f0f0f0f0f0f j = decide (j % 8 < 4) := by decide
  by_cases hi : i < 64
  · simp [h64 i hi, hi]
  · have hlt : (0x0f0f0f0f0f0f0f0f : Nat) < 2 ^ i :=
      lt_of_lt_of_le (by norm_num)
        (Nat.pow_le_pow_right (by norm_num) (Nat.le_of_not_lt hi))
    simp [Nat.testBit_lt_two_pow hlt, hi]

/-- Bits of the mask `0x3333333333333333`. -/
theorem maskbit2 (i : Nat) :
    Nat.testBit 0x3333333333333333 i = (decide (i < 64) && decide (i % 4 < 2)) := by
  have h64 : ∀ j, j < 64 →
      Nat.testBit 0x3333333333333333 j = decide (j % 4 < 2) := by decide
  by_cases hi : i < 64
  · simp [h64 i hi, hi]
  · have hlt : (0x3333333333333333 : Nat) < 2 ^ i :=
      lt_of_lt_of_le (by norm_num)
        (Nat.pow_le_pow_right (by norm_num) (Nat.le_of_not_lt hi))
    simp [Nat.testBit_lt_two_pow hlt, hi]

/-- Bits of the alternating mask `0x5555555555555555`: the even positions below 64. -/
theorem maskbit1 (i : Nat) :
    Nat.testBit 0x5555555555555555 i = (decide (i < 64) && decide (i % 2 = 0)) := by
  have h64 : ∀ j, j < 64 →
      Nat.testBit 0x5555555555555555 j = decide (j % 2 = 0) := by decide
  by_cases hi : i < 64
  · simp [h64 i hi, hi]
  · have hlt : (0x5555555555555555 : Nat) < 2 ^ i :=
      lt_of_lt_of_le (by norm_num)
        (Nat.pow_le_pow_right (by norm_num) (Nat.le_of_not_lt hi))
    simp [Nat.testBit_lt_two_pow hlt, hi]

/-- Bits of the alternating mask `0xaaaaaaaaaaaaaaaa`: the odd positions below 64. -/
theorem maskbitA (i : Nat) :
    Nat.testBit 0xaaaaaaaaaaaaaaaa i = (decide (i < 64) && decide (i % 2 = 1)) := by
  have h64 : ∀ j, j < 64 →
      Nat.testBit 0xaaaaaaaaaaaaaaaa j = decide (j % 2 = 1) := by decide
  by_cases hi : i < 64
  · simp [h64 i hi, hi]
  · have hlt : (0xaaaaaaaaaaaaaaaa : Nat) < 2 ^ i :=
      lt_of_lt_of_le (by norm_num)
        (Nat.pow_le_pow_right (by norm_num) (Nat.le_of_not_lt hi))
    simp [Nat.testBit_lt_two_pow hlt, hi]

/-- The spread result is bounded by its final mask. -/
theorem part1by1_le (v : Nat) : portable.part1by1 v ≤ 0x5555555555555555 := by
  simp only [portable.part1by1]
  exact Nat.and_le_right

set_option maxHeartbeats 4000000 in
/-- Bit-level characterization of `part1by1`: bit `2k` of the result is bit `k`
of the input and all other bits are clear. -/
theorem part1by1_testBit (v i : Nat) :
    (portable.part1by1 v).testBit i =
      (decide (i % 2 = 0) && decide (i < 64) && v.testBit (i / 2)) := by
  by_cases hi : i < 64
  · simp only [portable.part1by1]
    interval_cases i <;>
    · simp only [Nat.testBit_and, Nat.testBit_xor, Nat.testBit_shiftLeft,
        Nat.testBit_mod_two_pow, maskbit32, maskbit16, maskbit8, maskbit4,
        maskbit2, maskbit1]
      norm_num
  · have hlt : portable.part1by1 v < 2 ^ i :=
      lt_of_le_of_lt (part1by1_le v)
        (lt_of_lt_of_le (by norm_num)
          (Nat.pow_le_pow_right (by norm_num) (Nat.le_of_not_lt hi)))
    simp [Nat.testBit_lt_two_pow hlt, hi]

set_option maxHeartbeats 4000000 in
/-- Bit-level characterization of `compact1by1`: bit `i` of the result is bit
`2i` of the input, for `i < 32`. -/
theorem compact1by1_testBit (a i : Nat) :
    (portable.compact1by1 a).testBit i = (decide (i < 32) && a.testBit (2 * i)) := by
  by_cases hi : i < 32
  · simp only [portable.compact1by1]
    interval_cases i <;>
    · simp only [Nat.testBit_and, Nat.testBit_xor, Nat.testBit_shiftRight,
        Nat.testBit_mod_two_pow, maskbit32, maskbit16, maskbit8, maskbit4,
        maskbit2, maskbit1]
      norm_num
  · have h1 : portable.compact1by1 a < 2 ^ 32 := by
      simp only [portable.compact1by1]
      exact Nat.mod_lt _ (by norm_num)
    have hlt : portable.compact1by1 a < 2 ^ i :=
      lt_of_lt_of_le h1 (Nat.pow_le_pow_right (by norm_num) (Nat.le_of_not_lt hi))
    simp [Nat.testBit_lt_two_pow hlt, hi]

/-- Carry-free addition: when two naturals share no set bit, their sum is their
bitwise or. Proved by induction on the bit-width of the first argument. -/
theorem add_eq_or_of_and_eq_zero_aux :
    ∀ n a b : Nat, a < 2 ^ n → a &&& b = 0 → a + b = a ||| b := by
  intro n
  induction n with
  | zero =>
    intro a b ha _
    have ha0 : a = 0 := by simpa using ha
    simp [ha0]
  | succ n ih =>
    intro a b ha h
    have h2 : a / 2 &&& b / 2 = 0 := by
      rw [← Nat.and_div_two, h]
    have hlt : a / 2 < 2 ^ n := by
      have := Nat.pow_succ 2 n
      omega
    have ih2 := ih (a / 2) (b / 2) hlt h2
    have hmod : ¬(a % 2 = 1 ∧ b % 2 = 1) := by
      intro hc
      have h1 := Nat.and_mod_two_eq_one.mpr hc
      rw [h] at h1
      simp at h1
    have hor := Nat.or_div_two (a := a) (b := b)
    have hormod := Nat.or_mod_two_eq_one (a := a) (b := b)
    have hd1 := Nat.div_add_mod a 2
    have hd2 := Nat.div_add_mod b 2
    have hd3 := Nat.div_add_mod (a ||| b) 2
    omega

/-- Carry-free addition, stated without the width bound. -/
theorem add_eq_or_of_and_eq_zero (a b : Nat) (h : a &&& b = 0) : a + b = a ||| b :=
  add_eq_or_of_and_eq_zero_aux a a b (Nat.lt_two_pow a) h

/-- The two operands combined by `morton_encode` occupy disjoint bit sets. -/
theorem encode_disjoint (x y : Nat) :
    ((portable.part1by1 y <<< 1) % 2 ^ 64) &&& portable.part1by1 x = 0 := by
  apply Nat.eq_of_testBit_eq
  intro i
  simp only [Nat.testBit_and, Nat.testBit_mod_two_pow, Nat.testBit_shiftLeft,
    part1by1_testBit, Nat.zero_testBit]
  rcases Nat.mod_two_eq_zero_or_one i with h | h
  · rcases Nat.eq_zero_or_pos i with h0 | h0
    · simp [h0]
    · have h1 : (i - 1) % 2 = 1 := by omega
      simp [h1]
  · simp [h]

/-- Bit layout of the portable encoder: even bits come from `x`, odd bits from
`y`, and bits at position 64 and above are clear. -/
theorem morton_encode_testBit (x y i : Nat) :
    (portable.morton_encode x y).testBit i =
      (decide (i < 64) &&
        ((decide (i % 2 = 0) && x.testBit (i / 2)) ||
         (decide (i % 2 = 1) && y.testBit (i / 2)))) := by
  have hdisj := encode_disjoint x y
  rw [portable.morton_encode, add_eq_or_of_and_eq_zero _ _ hdisj]
  simp only [Nat.testBit_mod_two_pow, Nat.testBit_or, Nat.testBit_shiftLeft,
    part1by1_testBit]
  rcases Nat.mod_two_eq_zero_or_one i with h | h
  · rcases Nat.eq_zero_or_pos i with h0 | h0
    · simp [h0]
    · have h1 : (i - 1) % 2 = 1 := by omega
      simp [h, h1]
  · have h1 : (i - 1) % 2 = 0 := by omega
    have h2 : (1 : Nat) ≤ i := by omega
    have h3 : (i - 1) / 2 = i / 2 := by omega
    by_cases hi : i < 64
    · have h4 : i - 1 < 64 := by omega
      simp [h, h1, h2, h3, hi, h4]
    · simp [h, hi]

/-- Decoding inverts encoding on the full 32-bit by 32-bit domain. -/
theorem decode_encode_eq (x y : Nat) (hx : x < 2 ^ 32) (hy : y < 2 ^ 32) :
    portable.morton_decode (portable.morton_encode x y) = (x, y) := by
  rw [portable.morton_decode]
  refine Prod.ext ?_ ?_
  · show portable.compact1by1 (portable.morton_encode x y) = x
    apply Nat.eq_of_testBit_eq
    intro i
    rw [compact1by1_testBit, morton_encode_testBit]
    by_cases hi : i < 32
    · have h1 : 2 * i < 64 := by omega
      have h2 : 2 * i % 2 = 0 := by omega
      have h3 : 2 * i / 2 = i := by omega
      simp [hi, h1, h2, h3]
    · have hxb : x.testBit i = false :=
        Nat.testBit_lt_two_pow
          (lt_of_lt_of_le hx (Nat.pow_le_pow_right (by norm_num) (Nat.le_of_not_lt hi)))
      simp [hi, hxb]
  · show portable.compact1by1 (portable.morton_encode x y >>> 1) = y
    apply Nat.eq_of_testBit_eq
    intro i
    rw [compact1by1_testBit, Nat.testBit_shiftRight, morton_encode_testBit]
    by_cases hi : i < 32
    · have h1 : 1 + 2 * i < 64 := by omega
      have h2 : (1 + 2 * i) % 2 = 1 := by omega
      have h3 : (1 + 2 * i) / 2 = i := by omega
      simp [hi, h1, h2, h3]
    · have hyb : y.testBit i = false :=
        Nat.testBit_lt_two_pow
          (lt_of_lt_of_le hy (Nat.pow_le_pow_right (by norm_num) (Nat.le_of_not_lt hi)))
      simp [hi, hyb]

/-- Encoding inverts decoding on the full 64-bit key space. -/
theorem encode_decode_eq (k : Nat) (hk : k < 2 ^ 64) :
    portable.morton_encode (portable.morton_decode k).1 (portable.morton_decode k).2 = k := by
  rw [portable.morton_decode]
  apply Nat.eq_of_testBit_eq
  intro i
  rw [morton_encode_testBit]
  by_cases hi : i < 64
  · rcases Nat.mod_two_eq_zero_or_one i with h | h
    · have h3 : i / 2 < 32 := by omega
      have h4 : 2 * (i / 2) = i := by omega
      simp only [compact1by1_testBit, h4]
      simp [hi, h, h3]
    · have h3 : i / 2 < 32 := by omega
      have h4 : 1 + 2 * (i / 2) = i := by omega
      simp only [compact1by1_testBit, Nat.testBit_shiftRight, h4]
      simp [hi, h, h3]
  · have hkb : k.testBit i = false :=
      Nat.testBit_lt_two_pow
        (lt_of_lt_of_le hk (Nat.pow_le_pow_right (by norm_num) (Nat.le_of_not_lt hi)))
    simp [hi, hkb]

/-- The source's `PATTERN` is the alternating mask of width 64. -/
theorem alt_32 : alt 32 = bmi.PATTERN := by decide

/-- Unfolding two `pext` steps across one level of the alternating mask. -/
theorem pextAux_alt_succ (s n : Nat) :
    bmi.pextAux s (alt (n + 1)) (2 * (n + 1)) =
      2 * bmi.pextAux (s / 4) (alt n) (2 * n) + s % 2 := by
  have hf : 2 * (n + 1) = 2 * n + 1 + 1 := by omega
  have h1 : alt (n + 1) % 2 = 1 := by simp [alt]; omega
  have h2 : alt (n + 1) / 2 = 2 * alt n := by simp [alt]; omega
  have h4 : 2 * alt n / 2 = alt n := by omega
  have h5 : s / 2 / 2 = s / 4 := by omega
  rw [hf, bmi.pextAux, if_pos h1, h2, bmi.pextAux, if_neg (by omega), h4, h5]

/-- Bit-level characterization of `pext` with the alternating mask: bit `i` of
the result is bit `2i` of the source. -/
theorem pextAux_alt_testBit :
    ∀ (n s i : Nat),
      (bmi.pextAux s (alt n) (2 * n)).testBit i = (decide (i < n) && s.testBit (2 * i)) := by
  intro n
  induction n with
  | zero => simp [bmi.pextAux]
  | succ n ih =>
    intro s i
    rw [pextAux_alt_succ]
    match i with
    | 0 =>
      simp only [Nat.testBit_zero]
      have : (2 * bmi.pextAux (s / 4) (alt n) (2 * n) + s % 2) % 2 = s % 2 := by omega
      rw [this]
      simp
    | i + 1 =>
      rw [Nat.testBit_add_one]
      have : (2 * bmi.pextAux (s / 4) (alt n) (2 * n) + s % 2) / 2 =
          bmi.pextAux (s / 4) (alt n) (2 * n) := by omega
      rw [this, ih]
      have h4 : s / 4 = s >>> 2 := by
        simp [Nat.shiftRight_eq_div_pow]
      rw [h4, Nat.testBit_shiftRight]
      have : 2 + 2 * i = 2 * (i + 1) := by omega
      rw [this]
      simp

/-- Unfolding two `pdep` steps across one level of the alternating mask. -/
theorem pdepAux_alt_succ (s n : Nat) :
    bmi.pdepAux s (alt (n + 1)) (2 * (n + 1)) =
      4 * bmi.pdepAux (s / 2) (alt n) (2 * n) + s % 2 := by
  have hf : 2 * (n + 1) = 2 * n + 1 + 1 := by omega
  have h1 : alt (n + 1) % 2 = 1 := by simp [alt]; omega
  have h2 : alt (n + 1) / 2 = 2 * alt n := by simp [alt]; omega
  have h4 : 2 * alt n / 2 = alt n := by omega
  rw [hf, bmi.pdepAux, if_pos h1, h2, bmi.pdepAux, if_neg (by omega), h4]
  omega

/-- Bit-level characterization of `pdep` with the alternating mask: bit `2k` of
the result is bit `k` of the source and odd bits are clear. -/
theorem pdepAux_alt_testBit :
    ∀ (n s i : Nat),
      (bmi.pdepAux s (alt n) (2 * n)).testBit i =
        (decide (i % 2 = 0) && decide (i < 2 * n) && s.testBit (i / 2)) := by
  intro n
  induction n with
  | zero => simp [bmi.pdepAux]
  | succ n ih =>
    intro s i
    rw [pdepAux_alt_succ]
    match i with
    | 0 =>
      simp only [Nat.testBit_zero]
      have : (4 * bmi.pdepAux (s / 2) (alt n) (2 * n) + s % 2) % 2 = s % 2 := by omega
      rw [this]
      simp
    | 1 =>
      rw [Nat.testBit_add_one]
      have : (4 * bmi.pdepAux (s / 2) (alt n) (2 * n) + s % 2) / 2 =
          2 * bmi.pdepAux (s / 2) (alt n) (2 * n) := by omega
      rw [this]
      simp only [Nat.testBit_zero]
      have : 2 * bmi.pdepAux (s / 2) (alt n) (2 * n) % 2 = 0 := by omega
      rw [this]
      simp
    | i + 2 =>
      rw [Nat.testBit_add_one, Nat.testBit_add_one]
      have : (4 * bmi.pdepAux (s / 2) (alt n) (2 * n) + s % 2) / 2 / 2 =
          bmi.pdepAux (s / 2) (alt n) (2 * n) := by omega
      rw [this, ih]
      have h1 : (i + 2) % 2 = i % 2 := by omega
      have h2 : (i + 2) / 2 = i / 2 + 1 := by omega
      have h3 : s.testBit (i / 2 + 1) = (s / 2).testBit (i / 2) := by
        rw [Nat.testBit_add_one]
      rw [h1, h2, h3]
      by_cases hp : i % 2 = 0
      · by_cases hl : i < 2 * n
        · simp [hp, hl]
          omega
        · have : ¬(i + 2 < 2 * (n + 1)) := by omega
          simp [hp, hl, this]
      · simp [hp]

/-- Bits of a 64-step `pdep` with the source's `PATTERN`. -/
theorem pdep_pattern_testBit (s i : Nat) :
    (bmi.pdepAux s bmi.PATTERN 64).testBit i =
      (decide (i % 2 = 0) && decide (i < 64) && s.testBit (i / 2)) := by
  rw [← alt_32, show (64 : Nat) = 2 * 32 by norm_num, pdepAux_alt_testBit]

/-- Bits of a 64-step `pext` with the source's `PATTERN`. -/
theorem pext_pattern_testBit (s i : Nat) :
    (bmi.pextAux s bmi.PATTERN 64).testBit i =
      (decide (i < 32) && s.testBit (2 * i)) := by
  rw [← alt_32, show (64 : Nat) = 2 * 32 by norm_num, pextAux_alt_testBit]

/-- The hardware and the portable encoder agree on every input. -/
theorem bmi_encode_eq_portable (x y : Nat) :
    bmi.morton_encode x y = portable.morton_encode x y := by
  apply Nat.eq_of_testBit_eq
  intro i
  rw [bmi.morton_encode, morton_encode_testBit]
  simp only [Nat.testBit_or, Nat.testBit_mod_two_pow, Nat.testBit_shiftLeft,
    pdep_pattern_testBit]
  by_cases hi : i < 64
  · rcases Nat.mod_two_eq_zero_or_one i with h | h
    · rcases Nat.eq_zero_or_pos i with h0 | h0
      · simp [h0]
      · have h1 : (i - 1) % 2 = 1 := by omega
        have h2 : i / 2 < 32 := by omega
        simp [h, h1, h2, hi]
    · have h1 : (i - 1) % 2 = 0 := by omega
      have h2 : (1 : Nat) ≤ i := by omega
      have h3 : (i - 1) / 2 = i / 2 := by omega
      have h4 : i - 1 < 64 := by omega
      have h5 : i / 2 < 32 := by omega
      simp [h, h1, h2, h3, h4, h5, hi]
  · simp [hi]

/-- The hardware and the portable decoder agree on every input. -/
theorem bmi_decode_eq_portable (a : Nat) :
    bmi.morton_decode a = portable.morton_decode a := by
  rw [bmi.morton_decode, portable.morton_decode]
  refine Prod.ext ?_ ?_
  · show bmi.pextAux (a % 2 ^ 64) bmi.PATTERN 64 % 2 ^ 32 = portable.compact1by1 a
    apply Nat.eq_of_testBit_eq
    intro i
    rw [compact1by1_testBit, Nat.testBit_mod_two_pow, pext_pattern_testBit,
      Nat.testBit_mod_two_pow]
    by_cases hi : i < 32
    · have h1 : 2 * i < 64 := by omega
      simp [hi, h1]
    · simp [hi]
  · show bmi.pextAux (bmi.sar64 a) bmi.PATTERN 64 % 2 ^ 32 =
      portable.compact1by1 (a >>> 1)
    apply Nat.eq_of_testBit_eq
    intro i
    rw [compact1by1_testBit, Nat.testBit_mod_two_pow, pext_pattern_testBit,
      Nat.testBit_shiftRight]
    by_cases hi : i < 32
    · have hsar : (bmi.sar64 a).testBit (2 * i) = a.testBit (1 + 2 * i) := by
        rw [bmi.sar64]
        have h1 : 1 + 2 * i < 64 := by omega
        by_cases hb : (a % 2 ^ 64).testBit 63
        · rw [if_pos hb]
          simp only [Nat.testBit_or, Nat.testBit_shiftRight, Nat.testBit_shiftLeft,
            Nat.testBit_mod_two_pow]
          have h2 : ¬(63 ≤ 2 * i) := by omega
          simp [h1, h2]
        · rw [if_neg hb]
          simp only [Nat.testBit_shiftRight, Nat.testBit_mod_two_pow]
          simp [h1]
      simp [hi, hsar]
    · simp [hi]

/-- C1. Round-trip inverse: for every pair of 32-bit unsigned integers
`(x, y)`, `morton_decode (morton_encode x y) = (x, y)`. -/
theorem claim_C1 (x y : Nat) (hx : x < 2 ^ 32) (hy : y < 2 ^ 32) :
    portable.morton_decode (portable.morton_encode x y) = (x, y) :=
  decode_encode_eq x y hx hy

/-- Witness for C1 at the known test vector. -/
theorem claim_C1_witness :
    (0x123456 : Nat) < 2 ^ 32 ∧ (0x456789 : Nat) < 2 ^ 32 ∧
      portable.morton_decode (portable.morton_encode 0x123456 0x456789) =
        (0x123456, 0x456789) :=
  ⟨by norm_num, by norm_num, claim_C1 0x123456 0x456789 (by norm_num) (by norm_num)⟩

/-- C2. Bit layout of encode: bit `2k` of `morton_encode x y` is bit `k` of
`x`, bit `2k+1` is bit `k` of `y`, and no bits exist beyond the 64-bit
result. -/
theorem claim_C2 (x y k : Nat) (hx : x < 2 ^ 32) (hy : y < 2 ^ 32) (hk : k < 32) :
    (portable.morton_encode x y).testBit (2 * k) = x.testBit k ∧
    (portable.morton_encode x y).testBit (2 * k + 1) = y.testBit k ∧
    portable.morton_encode x y < 2 ^ 64 := by
  refine ⟨?_, ?_, ?_⟩
  · rw [morton_encode_testBit]
    have h1 : 2 * k < 64 := by omega
    have h2 : 2 * k % 2 = 0 := by omega
    have h3 : 2 * k / 2 = k := by omega
    simp [h1, h2, h3]
  · rw [morton_encode_testBit]
    have h1 : 2 * k + 1 < 64 := by omega
    have h2 : (2 * k + 1) % 2 = 1 := by omega
    have h3 : (2 * k + 1) / 2 = k := by omega
    simp [h1, h2, h3]
  · simp only [portable.morton_encode]
    exact Nat.mod_lt _ (by norm_num)

/-- Witness for C2 at `x = 0xffffffff`, `y = 0`, `k = 7`. -/
theorem claim_C2_witness :
    (0xffffffff : Nat) < 2 ^ 32 ∧ (0 : Nat) < 2 ^ 32 ∧ (7 : Nat) < 32 ∧
      ((portable.morton_encode 0xffffffff 0).testBit (2 * 7) =
          (0xffffffff : Nat).testBit 7 ∧
        (portable.morton_encode 0xffffffff 0).testBit (2 * 7 + 1) =
          (0 : Nat).testBit 7 ∧
        portable.morton_encode 0xffffffff 0 < 2 ^ 64) :=
  ⟨by norm_num, by norm_num, by norm_num,
    claim_C2 0xffffffff 0 7 (by norm_num) (by norm_num) (by norm_num)⟩

/-- C3. No collision / bijection: encode is injective on the 32-bit by 32-bit
domain, and for every 64-bit key `k`, encoding the decoded pair returns `k`
(the key space is exactly filled). -/
theorem claim_C3 :
    (∀ x1 y1 x2 y2 : Nat, x1 < 2 ^ 32 → y1 < 2 ^ 32 → x2 < 2 ^ 32 → y2 < 2 ^ 32 →
      portable.morton_encode x1 y1 = portable.morton_encode x2 y2 →
      x1 = x2 ∧ y1 = y2) ∧
    (∀ k : Nat, k < 2 ^ 64 →
      portable.morton_encode (portable.morton_decode k).1 (portable.morton_decode k).2 = k) := by
  constructor
  · intro x1 y1 x2 y2 h1 h2 h3 h4 he
    have hd1 := decode_encode_eq x1 y1 h1 h2
    have hd2 := decode_encode_eq x2 y2 h3 h4
    rw [he, hd2] at hd1
    exact ⟨congrArg Prod.fst hd1.symm, congrArg Prod.snd hd1.symm⟩
  · intro k hk
    exact encode_decode_eq k hk

/-- Witness for C3: injectivity at a concrete pair and key reconstruction at
the known vector. -/
theorem claim_C3_witness :
    ((1 : Nat) = 1 ∧ (2 : Nat) = 2) ∧
      portable.morton_encode (portable.morton_decode 0x21262d3a9196).1
        (portable.morton_decode 0x21262d3a9196).2 = 0x21262d3a9196 :=
  ⟨claim_C3.1 1 2 1 2 (by norm_num) (by norm_num) (by norm_num) (by norm_num) rfl,
    claim_C3.2 0x21262d3a9196 (by norm_num)⟩

/-- C4. Known vector: `morton_encode 0x00123456 0x00456789 = 0x21262d3a9196`
and `morton_decode 0x21262d3a9196 = (0x00123456, 0x00456789)`. -/
theorem claim_C4 :
    portable.morton_encode 0x00123456 0x00456789 = 0x21262d3a9196 ∧
    portable.morton_decode 0x21262d3a9196 = (0x00123456, 0x00456789) := by
  decide

/-- C5. Cross-implementation equivalence: the BMI2 (`pdep`/`pext`) encoder and
decoder agree with the portable ones on every input. -/
theorem claim_C5 :
    (∀ x y : Nat, bmi.morton_encode x y = portable.morton_encode x y) ∧
    (∀ a : Nat, bmi.morton_decode a = portable.morton_decode a) :=
  ⟨bmi_encode_eq_portable, bmi_decode_eq_portable⟩

/-- C6. Addition is carry-free in encode: the set bits of `part1by1 y << 1`
and `part1by1 x` never overlap, the `+` in `morton_encode` equals bitwise or,
and the sum does not overflow 64 bits. -/
theorem claim_C6 (x y : Nat) :
    ((portable.part1by1 y <<< 1) % 2 ^ 64) &&& portable.part1by1 x = 0 ∧
    ((portable.part1by1 y <<< 1) % 2 ^ 64) + portable.part1by1 x =
      ((portable.part1by1 y <<< 1) % 2 ^ 64) ||| portable.part1by1 x ∧
    ((portable.part1by1 y <<< 1) % 2 ^ 64) + portable.part1by1 x < 2 ^ 64 := by
  refine ⟨encode_disjoint x y, add_eq_or_of_and_eq_zero _ _ (encode_disjoint x y), ?_⟩
  have hx := part1by1_le x
  have hy := part1by1_le y
  have hp : (2 : Nat) ^ 64 = 18446744073709551616 := by norm_num
  have h2 : portable.part1by1 y <<< 1 = portable.part1by1 y * 2 := by
    rw [Nat.shiftLeft_eq, pow_one]
  rw [h2, Nat.mod_eq_of_lt (by omega)]
  omega

/-- C7. Spread algorithm correctness: the five xor-shift-mask rounds of
`part1by1` place bit `k` of the 32-bit input at bit `2k` of a 64-bit value
whose odd-position bits are all zero. -/
theorem claim_C7 (v : Nat) (hv : v < 2 ^ 32) :
    (∀ k, k < 32 → (portable.part1by1 v).testBit (2 * k) = v.testBit k) ∧
    (∀ j, j % 2 = 1 → (portable.part1by1 v).testBit j = false) ∧
    portable.part1by1 v < 2 ^ 64 := by
  refine ⟨?_, ?_, ?_⟩
  · intro k hk
    rw [part1by1_testBit]
    have h1 : 2 * k % 2 = 0 := by omega
    have h2 : 2 * k < 64 := by omega
    have h3 : 2 * k / 2 = k := by omega
    simp [h1, h2, h3]
  · intro j hj
    rw [part1by1_testBit]
    simp [hj]
  · exact lt_of_le_of_lt (part1by1_le v) (by norm_num)

/-- Witness for C7 at `v = 0x89abcdef`, even bit 6 and odd bit 5. -/
theorem claim_C7_witness :
    (0x89abcdef : Nat) < 2 ^ 32 ∧
      (portable.part1by1 0x89abcdef).testBit (2 * 3) = (0x89abcdef : Nat).testBit 3 ∧
      (portable.part1by1 0x89abcdef).testBit 5 = false :=
  ⟨by norm_num,
    (claim_C7 0x89abcdef (by norm_num)).1 3 (by norm_num),
    (claim_C7 0x89abcdef (by norm_num)).2.1 5 (by norm_num)⟩

/-- C8. Bit isolation: a single-bit input `x = 1 << k` produces the single-bit
key `1 << 2k`, and a single-bit `y` produces `1 << (2k+1)`. -/
theorem claim_C8 :
    ∀ k : Nat, k < 32 →
      portable.morton_encode (1 <<< k) 0 = 1 <<< (2 * k) ∧
      portable.morton_encode 0 (1 <<< k) = 1 <<< (2 * k + 1) := by
  decide

/-- Witness for C8 at `k = 3`. -/
theorem claim_C8_witness :
    (3 : Nat) < 32 ∧
      (portable.morton_encode (1 <<< 3) 0 = 1 <<< (2 * 3) ∧
        portable.morton_encode 0 (1 <<< 3) = 1 <<< (2 * 3 + 1)) :=
  ⟨by norm_num, claim_C8 3 (by norm_num)⟩

/-- C9. Zero identity: `morton_encode 0 0 = 0` and `morton_decode 0 = (0, 0)`. -/
theorem claim_C9 :
    portable.morton_encode 0 0 = 0 ∧ portable.morton_decode 0 = (0, 0) := by
  decide

/-- C10. Decode parity separation: the first component of `morton_decode`
depends only on the even-position bits of the key and the second only on the
odd-position bits; in particular
`compact1by1 k = compact1by1 (k &&& 0x5555555555555555)`. -/
theorem claim_C10 (k : Nat) :
    portable.compact1by1 k = portable.compact1by1 (k &&& 0x5555555555555555) ∧
    (portable.morton_decode k).1 =
      (portable.morton_decode (k &&& 0x5555555555555555)).1 ∧
    (portable.morton_decode k).2 =
      (portable.morton_decode (k &&& 0xaaaaaaaaaaaaaaaa)).2 := by
  have hfst : portable.compact1by1 k =
      portable.compact1by1 (k &&& 0x5555555555555555) := by
    apply Nat.eq_of_testBit_eq
    intro i
    rw [compact1by1_testBit, compact1by1_testBit, Nat.testBit_and, maskbit1]
    by_cases hi : i < 32
    · have h1 : 2 * i < 64 := by omega
      have h2 : 2 * i % 2 = 0 := by omega
      simp [h1, h2]
    · simp [hi]
  refine ⟨hfst, ?_, ?_⟩
  · simpa only [portable.morton_decode] using hfst
  · show portable.compact1by1 (k >>> 1) =
      portable.compact1by1 ((k &&& 0xaaaaaaaaaaaaaaaa) >>> 1)
    apply Nat.eq_of_testBit_eq
    intro i
    rw [compact1by1_testBit, compact1by1_testBit, Nat.testBit_shiftRight,
      Nat.testBit_shiftRight, Nat.testBit_and, maskbitA]
    by_cases hi : i < 32
    · have h1 : 1 + 2 * i < 64 := by omega
      have h2 : (1 + 2 * i) % 2 = 1 := by omega
      simp [h1, h2]
    · simp [hi]

end Morton
